import Mathlib

/-!
Shallow embedding of `src/mux.rs` (halo2-lib mux gadget).

The Rust source defines:
* `MuxConfig` — three advice columns, one fixed column, one selector;
* `MuxChip::configure` — allocates the columns/selector and registers the
  single gate `s * (((1 - sel) * in_a + sel * in_b) - out)`;
* `MuxChip::mux` — assigns one region: enables the selector at `row`,
  computes `out = a * (1 - sel) + b * sel` on `Value`s, assigns `sel` to the
  fixed column and `a`, `b`, `out` to the three advice columns at `row`;
* `MuxCircuit::synthesize` — for `i in 0..L` calls
  `chip.mux(layouter.namespace(|| format!("mux_{}", i)), a[i], b[i], mux, i)`,
  discarding each result with `let _ =`, and returns `Ok(())`.

Host-framework (halo2) behaviour that the gadget relies on is embedded
explicitly: `Value<F>` with its pointwise-lifted arithmetic, the `Expression`
AST with the operator encodings used by `create_gate` (`Sub` is
`Sum (_, Negated _)`), a counter-based `ConstraintSystem` allocator, and a
region binder whose operations may fail with a host-chosen error (halo2's
`assign_region` plumbing), modelled by an error-injection record
`HostOutcome`.
-/

namespace MuxSpec

/-- halo2's `Value<F>`: either a concrete witness (`known`) or the
shape-only placeholder (`unknown`). -/
inductive Value (F : Type) where
  | unknown : Value F
  | known : F → Value F
  deriving DecidableEq, Repr

namespace Value

/-- halo2 `impl Add for Value`: pointwise, `unknown` absorbing. -/
def add {F : Type} [Add F] : Value F → Value F → Value F
  | known a, known b => known (a + b)
  | _, _ => unknown

/-- halo2 `impl Sub for Value`: pointwise, `unknown` absorbing. -/
def sub {F : Type} [Sub F] : Value F → Value F → Value F
  | known a, known b => known (a - b)
  | _, _ => unknown

/-- halo2 `impl Mul for Value`: pointwise, `unknown` absorbing. -/
def mul {F : Type} [Mul F] : Value F → Value F → Value F
  | known a, known b => known (a * b)
  | _, _ => unknown

instance {F : Type} [Add F] : Add (Value F) := ⟨Value.add⟩

instance {F : Type} [Sub F] : Sub (Value F) := ⟨Value.sub⟩

instance {F : Type} [Mul F] : Mul (Value F) := ⟨Value.mul⟩

/-- Extract the underlying field element, with a default for `unknown`
(used only to state gate satisfaction over fully-known assignments). -/
def getD {F : Type} (d : F) : Value F → F
  | known a => a
  | unknown => d

end Value

/-- The fragment of halo2's `Expression<F>` AST used by the mux gate.
Queries carry the column index and the rotation (always `Rotation::cur()`,
i.e. `0`, in this gadget). Constructors of `Expression` not reachable from
`MuxChip::configure` (instance queries, challenges, `Scaled`) are omitted. -/
inductive Expression (F : Type) where
  | Constant : F → Expression F
  | Selector : Nat → Expression F
  | Fixed : Nat → Int → Expression F
  | Advice : Nat → Int → Expression F
  | Negated : Expression F → Expression F
  | Sum : Expression F → Expression F → Expression F
  | Product : Expression F → Expression F → Expression F
  deriving DecidableEq, Repr

namespace Expression

/-- halo2 `impl Neg for Expression`. -/
def neg {F : Type} (e : Expression F) : Expression F := Negated e

/-- halo2 `impl Add for Expression`. -/
def addE {F : Type} (e f : Expression F) : Expression F := Sum e f

/-- halo2 `impl Sub for Expression`: `a - b` builds `Sum(a, Negated(b))`. -/
def subE {F : Type} (e f : Expression F) : Expression F := Sum e (Negated f)

/-- halo2 `impl Mul for Expression`. -/
def mulE {F : Type} (e f : Expression F) : Expression F := Product e f

instance {F : Type} : Add (Expression F) := ⟨Expression.addE⟩

instance {F : Type} : Sub (Expression F) := ⟨Expression.subE⟩

instance {F : Type} : Mul (Expression F) := ⟨Expression.mulE⟩

instance {F : Type} : Neg (Expression F) := ⟨Expression.neg⟩

/-- Evaluation of an expression given per-row values of selectors, fixed
columns and advice columns (halo2's `Expression::evaluate` specialised to
field values, as the mock prover uses it). -/
def eval {F : Type} [Field F] (selv : Nat → F) (fixv : Nat → Int → F)
    (advv : Nat → Int → F) : Expression F → F
  | Constant c => c
  | Selector s => selv s
  | Fixed c r => fixv c r
  | Advice c r => advv c r
  | Negated e => -(e.eval selv fixv advv)
  | Sum e f => e.eval selv fixv advv + f.eval selv fixv advv
  | Product e f => e.eval selv fixv advv * f.eval selv fixv advv

end Expression

/-- A gate registered by `ConstraintSystem::create_gate`: a name and the
list of polynomial constraints returned by the closure. -/
structure Gate (F : Type) where
  name : String
  polys : List (Expression F)
  deriving DecidableEq, Repr

/-- The allocation state of halo2's `ConstraintSystem` that the gadget
touches: fresh-index counters for advice columns, fixed columns and
selectors, plus the registered gates. -/
structure ConstraintSystem (F : Type) where
  num_advice_columns : Nat
  num_fixed_columns : Nat
  num_selectors : Nat
  gates : List (Gate F)
  deriving Repr

namespace ConstraintSystem

/-- Rust `meta.advice_column()`: returns a fresh advice column index. -/
def advice_column {F : Type} (m : ConstraintSystem F) :
    Nat × ConstraintSystem F :=
  (m.num_advice_columns, { m with num_advice_columns := m.num_advice_columns + 1 })

/-- Rust `meta.fixed_column()`: returns a fresh fixed column index. -/
def fixed_column {F : Type} (m : ConstraintSystem F) :
    Nat × ConstraintSystem F :=
  (m.num_fixed_columns, { m with num_fixed_columns := m.num_fixed_columns + 1 })

/-- Rust `meta.selector()`: returns a fresh selector index. -/
def selector {F : Type} (m : ConstraintSystem F) :
    Nat × ConstraintSystem F :=
  (m.num_selectors, { m with num_selectors := m.num_selectors + 1 })

/-- Rust `meta.create_gate(name, ...)`: appends one gate to the registry. -/
def create_gate {F : Type} (m : ConstraintSystem F) (name : String)
    (polys : List (Expression F)) : ConstraintSystem F :=
  { m with gates := m.gates ++ [⟨name, polys⟩] }

/-- Rust `meta.query_selector(s)`. -/
def query_selector {F : Type} (s : Nat) : Expression F := Expression.Selector s

/-- Rust `meta.query_advice(col, rot)`. -/
def query_advice {F : Type} (c : Nat) (rot : Int) : Expression F :=
  Expression.Advice c rot

/-- Rust `meta.query_fixed(col, rot)`. -/
def query_fixed {F : Type} (c : Nat) (rot : Int) : Expression F :=
  Expression.Fixed c rot

end ConstraintSystem

/-- Rust `Rotation::cur()`. -/
def Rotation.cur : Int := 0

/-- Rust `MuxConfig`: the handles captured by `MuxChip::configure`. -/
structure MuxConfig where
  advice : Fin 3 → Nat
  sel : Nat
  s : Nat
  deriving Repr

namespace MuxChip

open ConstraintSystem in
/-- Rust `MuxChip::configure`: allocates three advice columns, one selector and
one fixed column, and registers the single gate named "mux" whose one
polynomial is `s * (((Constant(1) - sel) * a + sel * b) - out)`, with the
queries and operator encodings of the Rust source. -/
def configure {F : Type} [Field F] (meta0 : ConstraintSystem F) :
    MuxConfig × ConstraintSystem F :=
  let (a0, meta1) := meta0.advice_column
  let (a1, meta2) := meta1.advice_column
  let (a2, meta3) := meta2.advice_column
  let (s, meta4) := meta3.selector
  let (sel, meta5) := meta4.fixed_column
  let sExpr : Expression F := query_selector s
  let a : Expression F := query_advice a0 Rotation.cur
  let b : Expression F := query_advice a1 Rotation.cur
  let out : Expression F := query_advice a2 Rotation.cur
  let selExpr : Expression F := query_fixed sel Rotation.cur
  let meta6 := meta5.create_gate "mux"
    [sExpr * (((Expression.Constant 1 - selExpr) * a + selExpr * b) - out)]
  (⟨![a0, a1, a2], sel, s⟩, meta6)

end MuxChip

/-- Which kind of column a cell lives in. -/
inductive ColumnKind where
  | advice : ColumnKind
  | fixed : ColumnKind
  deriving DecidableEq, Repr

/-- halo2's `AssignedCell<F, F>` (the source's `Element<F>`): the cell
coordinates together with the assigned value. -/
structure AssignedCell (F : Type) where
  kind : ColumnKind
  column : Nat
  row : Nat
  value : Value F
  deriving DecidableEq, Repr

/-- The cells and selector activations committed by one region. -/
structure Region (F : Type) where
  enabled : List (Nat × Nat)
  fixedCells : List (Nat × Nat × Value F)
  adviceCells : List (Nat × Nat × Value F)
  deriving DecidableEq, Repr

/-- The empty region handed to a fresh `assign_region` closure. -/
def Region.empty (F : Type) : Region F := ⟨[], [], []⟩

/-- Host-injected failures for the five binder operations `MuxChip::mux`
performs, in call order: `s.enable`, `assign_fixed("sel")`,
`assign_advice("in_a")`, `assign_advice("in_b")`, `assign_advice("out")`.
`none` means the host operation succeeds; `some e` means it fails with the
host error `e` (halo2 `plonk::Error`), which the gadget must propagate. -/
structure HostOutcome (E : Type) where
  enableErr : Option E
  selErr : Option E
  inAErr : Option E
  inBErr : Option E
  outErr : Option E
  deriving Repr

/-- A `HostOutcome` in which every binder operation succeeds. -/
def HostOutcome.ok (E : Type) : HostOutcome E := ⟨none, none, none, none, none⟩

namespace Region

/-- Rust `selector.enable(region, row)`: records the activation, unless the host
fails the call. -/
def enable {F E : Type} (r : Region F) (err : Option E) (s row : Nat) :
    Except E (Region F) :=
  match err with
  | some e => Except.error e
  | none => Except.ok { r with enabled := (s, row) :: r.enabled }

/-- Rust `region.assign_fixed(name, col, row, value)`: records the cell and
returns the assigned cell, unless the host fails the call. -/
def assign_fixed {F E : Type} (r : Region F) (err : Option E)
    (col row : Nat) (v : Value F) : Except E (Region F × AssignedCell F) :=
  match err with
  | some e => Except.error e
  | none =>
    Except.ok ({ r with fixedCells := (col, row, v) :: r.fixedCells },
      ⟨ColumnKind.fixed, col, row, v⟩)

/-- Rust `region.assign_advice(name, col, row, value)`: records the cell and
returns the assigned cell, unless the host fails the call. -/
def assign_advice {F E : Type} (r : Region F) (err : Option E)
    (col row : Nat) (v : Value F) : Except E (Region F × AssignedCell F) :=
  match err with
  | some e => Except.error e
  | none =>
    Except.ok ({ r with adviceCells := (col, row, v) :: r.adviceCells },
      ⟨ColumnKind.advice, col, row, v⟩)

end Region

/-- The value `MuxChip::mux` computes for the `out` cell:
`a * (Value::known(F::ONE) - sel) + b * sel`. -/
def muxOut {F : Type} [Field F] (a b sel : Value F) : Value F :=
  a * (Value.known 1 - sel) + b * sel

namespace MuxChip

/-- Rust `MuxChip::mux`: inside one `assign_region` (named "sel"), enable the
selector at `row`, compute `out`, assign `sel` to the fixed column and
`a`, `b`, `out` to the three advice columns at `row`, propagating any host
failure with `?`, and return the assigned `out` cell. -/
def mux {F E : Type} [Field F] (config : MuxConfig) (h : HostOutcome E)
    (r0 : Region F) (a b sel : Value F) (row : Nat) :
    Except E (Region F × AssignedCell F) := do
  let r1 ← r0.enable h.enableErr config.s row
  let out := a * (Value.known 1 - sel) + b * sel
  let (r2, _sel) ← r1.assign_fixed h.selErr config.sel row sel
  let (r3, _in_a) ← r2.assign_advice h.inAErr (config.advice 0) row a
  let (r4, _in_b) ← r3.assign_advice h.inBErr (config.advice 1) row b
  let (r5, outCell) ← r4.assign_advice h.outErr (config.advice 2) row out
  return (r5, outCell)

end MuxChip

/-- Rust `MuxCircuit<F, L>`: witness slices `a`, `b` and the shared scalar
`mux`. Rust slices are embedded as lists; `L` is passed to `synthesize`. -/
structure MuxCircuit (F : Type) where
  a : List (Value F)
  b : List (Value F)
  mux : Value F

/-- One iteration of the synthesis loop, as observed at the chip boundary:
the namespace name passed to `layouter.namespace`, the arguments handed to
`MuxChip::mux`, and the result of that call on its own fresh region. -/
structure MuxCall (F E : Type) where
  nsName : String
  a : Value F
  b : Value F
  sel : Value F
  row : Nat
  result : Except E (Region F × AssignedCell F)

/-- The loop `for i in 0..L { let _ = chip.mux(...); }` of
`MuxCircuit::synthesize`, starting at index `i` with `n` iterations left.
`self.a[i]` / `self.b[i]` are Rust slice indexing: `none` models the panic
when the index is out of bounds. Each iteration opens the fresh namespace
`format!("mux_{}", i)` whose region starts empty, and the `Result` of
`chip.mux` is recorded but — exactly as `let _ =` does — never inspected. -/
def synthLoop {F E : Type} [Field F] (c : MuxCircuit F) (config : MuxConfig)
    (h : Nat → HostOutcome E) : Nat → Nat → Option (List (MuxCall F E))
  | _, 0 => some []
  | i, n + 1 =>
    match c.a.get? i, c.b.get? i, synthLoop c config h (i + 1) n with
    | some ai, some bi, some rest =>
      some (⟨"mux_" ++ Nat.repr i, ai, bi, c.mux, i,
        MuxChip.mux config (h i) (Region.empty F) ai bi c.mux i⟩ :: rest)
    | _, _, _ => none

/-- The trace of chip calls made by `MuxCircuit::<F, L>::synthesize`:
`none` when the loop panics on an out-of-bounds index. -/
def MuxCircuit.synthesizeCalls {F E : Type} [Field F] (c : MuxCircuit F)
    (L : Nat) (config : MuxConfig) (h : Nat → HostOutcome E) :
    Option (List (MuxCall F E)) :=
  synthLoop c config h 0 L

/-- The value `MuxCircuit::synthesize` returns: whenever the loop does not
panic, `Ok(())` — each per-row `Result` was discarded by `let _ =`. -/
def MuxCircuit.synthesize {F E : Type} [Field F] (c : MuxCircuit F)
    (L : Nat) (config : MuxConfig) (h : Nat → HostOutcome E) :
    Option (Except E Unit) :=
  (c.synthesizeCalls L config h).map fun _ => Except.ok ()

/-- First assigned value at `(col, row)` among a region's cells (cells are
consed, so the head is the most recent assignment); `unknown` if the cell
was never assigned. -/
def cellsAt {F : Type} (cells : List (Nat × Nat × Value F)) (col row : Nat) :
    Value F :=
  match cells.find? (fun cr => cr.1 == col && cr.2.1 == row) with
  | some cr => cr.2.2
  | none => Value.unknown

namespace Region

/-- Selector evaluation at a row: `1` where enabled, `0` elsewhere (the
mock prover's reading of a `Selector`). -/
def selectorValue {F : Type} [Field F] (r : Region F) (row s : Nat) : F :=
  if (s, row) ∈ r.enabled then 1 else 0

/-- Fixed-column evaluation at a row (rotations resolved relative to
`row`; unassigned or unknown cells read as `0`). -/
def fixedValue {F : Type} [Field F] (r : Region F) (row : Nat) (c : Nat)
    (rot : Int) : F :=
  (cellsAt r.fixedCells c (Int.toNat ((row : Int) + rot))).getD 0

/-- Advice-column evaluation at a row (rotations resolved relative to
`row`; unassigned or unknown cells read as `0`). -/
def adviceValue {F : Type} [Field F] (r : Region F) (row : Nat) (c : Nat)
    (rot : Int) : F :=
  (cellsAt r.adviceCells c (Int.toNat ((row : Int) + rot))).getD 0

/-- The gate is satisfied at `row` on the assignment committed by `r`:
every polynomial of the gate evaluates to zero there. -/
def gateSatisfiedAt {F : Type} [Field F] (r : Region F) (g : Gate F)
    (row : Nat) : Prop :=
  ∀ p ∈ g.polys,
    p.eval (r.selectorValue row) (r.fixedValue row) (r.adviceValue row) = 0

end Region

instance : Fact (Nat.Prime 5) := ⟨by norm_num⟩

/-- Rust `ConstraintSystem::default()`: the freshly-created allocation state a
circuit's `configure` receives. -/
def csStart (F : Type) : ConstraintSystem F := ⟨0, 0, 0, []⟩

/-- The configuration obtained by running `MuxChip::configure` on a fresh
constraint system over the concrete prime field `ZMod 5`. -/
def cfg0 : MuxConfig := (MuxChip.configure (csStart (ZMod 5))).1

/-- Concrete two-row circuit instance over `ZMod 5`. -/
def circuitTwo : MuxCircuit (ZMod 5) :=
  ⟨[Value.known 1, Value.known 2], [Value.known 3, Value.known 4], Value.known 1⟩

/-- Concrete one-row circuit instance over `ZMod 5`. -/
def circuitOne : MuxCircuit (ZMod 5) :=
  ⟨[Value.known 1], [Value.known 2], Value.known 0⟩

/-- The configuration `MuxChip::configure` returns on the fresh constraint
system handed to `Circuit::configure` at circuit-compilation time. -/
def freshConfig (F : Type) [Field F] : MuxConfig :=
  (MuxChip.configure (csStart F)).1

/-- The gates registered on that fresh constraint system. -/
def freshGates (F : Type) [Field F] : List (Gate F) :=
  (MuxChip.configure (csStart F)).2.gates

/-- A host that never fails any binder operation. -/
def hostOkSeq : Nat → HostOutcome Nat := fun _ => HostOutcome.ok Nat

/-- A host that fails the very first binder operation (`s.enable` of the
row-0 instance) with error `7`. -/
def hostFailSeq : Nat → HostOutcome Nat :=
  fun _ => ⟨some 7, none, none, none, none⟩

/-- Decimal digits of `n`, least-significant first, padded so that `0`
has the single digit `0` — the digit list whose reversed `digitChar` image
is what `Nat.repr` prints. -/
def padDigits (n : Nat) : List Nat :=
  if n = 0 then [0] else Nat.digits 10 n

/-- The call the synthesis loop makes at index `i` (when `i` is in bounds
for both slices): namespace `format!("mux_{}", i)`, arguments `a[i]`,
`b[i]`, the shared `mux` scalar, and row `i`, run on a fresh region. -/
def muxCallAt {F E : Type} [Field F] (c : MuxCircuit F) (config : MuxConfig)
    (hs : Nat → HostOutcome E) (i : Nat) : MuxCall F E :=
  ⟨"mux_" ++ Nat.repr i, c.a.getD i Value.unknown, c.b.getD i Value.unknown,
    c.mux, i,
    MuxChip.mux config (hs i) (Region.empty F) (c.a.getD i Value.unknown)
      (c.b.getD i Value.unknown) c.mux i⟩

/-- The row argument of every recorded chip call. -/
def callRows {F E : Type} (o : Option (List (MuxCall F E))) :
    Option (List Nat) :=
  o.map fun calls => calls.map fun cl => cl.row

/-- The result of every recorded chip call. -/
def callResults {F E : Type} (o : Option (List (MuxCall F E))) :
    Option (List (Except E (Region F × AssignedCell F))) :=
  o.map fun calls => calls.map fun cl => cl.result

section Theorems

variable {F E : Type}

/-- Evaluation of an `Add`-built expression. -/
theorem eval_add [Field F] (selv : Nat → F) (fixv advv : Nat → Int → F)
    (e f : Expression F) :
    (e + f).eval selv fixv advv = e.eval selv fixv advv + f.eval selv fixv advv := rfl

/-- Evaluation of a `Mul`-built expression. -/
theorem eval_mul [Field F] (selv : Nat → F) (fixv advv : Nat → Int → F)
    (e f : Expression F) :
    (e * f).eval selv fixv advv = e.eval selv fixv advv * f.eval selv fixv advv := rfl

/-- Evaluation of a `Sub`-built expression (`Sum(e, Negated f)`). -/
theorem eval_sub [Field F] (selv : Nat → F) (fixv advv : Nat → Int → F)
    (e f : Expression F) :
    (e - f).eval selv fixv advv = e.eval selv fixv advv - f.eval selv fixv advv := by
  show e.eval selv fixv advv + -(f.eval selv fixv advv) = _
  rw [sub_eq_add_neg]

/-- Evaluation of a constant. -/
theorem eval_const [Field F] (selv : Nat → F) (fixv advv : Nat → Int → F)
    (c : F) : (Expression.Constant c).eval selv fixv advv = c := rfl

/-- Multiplication `known * known` multiplies pointwise. -/
theorem known_mul [Mul F] (x y : F) :
    Value.known x * Value.known y = Value.known (x * y) := rfl

/-- Addition `known + known` adds pointwise. -/
theorem known_add [Add F] (x y : F) :
    Value.known x + Value.known y = Value.known (x + y) := rfl

/-- Subtraction `known - known` subtracts pointwise. -/
theorem known_sub [Sub F] (x y : F) :
    Value.known x - Value.known y = Value.known (x - y) := rfl

/-- What `MuxChip::mux` does when every host operation succeeds: it
returns the region extended by the selector activation and the four cell
assignments at `row`, and the assigned `out` cell. -/
theorem mux_hostOk [Field F] (config : MuxConfig) (r0 : Region F)
    (a b sel : Value F) (row : Nat) :
    MuxChip.mux config (HostOutcome.ok E) r0 a b sel row =
      Except.ok
        ({ enabled := (config.s, row) :: r0.enabled,
           fixedCells := (config.sel, row, sel) :: r0.fixedCells,
           adviceCells := (config.advice 2, row, muxOut a b sel) ::
             (config.advice 1, row, b) :: (config.advice 0, row, a) ::
             r0.adviceCells },
         ⟨ColumnKind.advice, config.advice 2, row, muxOut a b sel⟩) := rfl

/-- C4: one call to `configure` allocates exactly three advice columns and
one fixed column, allocates exactly one selector, registers exactly one
named gate, and the returned configuration captures all of these handles. -/
theorem configure_allocates_columns [Field F]
    (meta0 m1 : ConstraintSystem F) (config : MuxConfig)
    (hc : MuxChip.configure meta0 = (config, m1)) :
    m1.num_advice_columns = meta0.num_advice_columns + 3 ∧
    m1.num_fixed_columns = meta0.num_fixed_columns + 1 ∧
    m1.num_selectors = meta0.num_selectors + 1 ∧
    (∃ g : Gate F, m1.gates = meta0.gates ++ [g] ∧ g.name = "mux" ∧
      g.polys.length = 1) ∧
    config.advice 0 = meta0.num_advice_columns ∧
    config.advice 1 = meta0.num_advice_columns + 1 ∧
    config.advice 2 = meta0.num_advice_columns + 2 ∧
    config.sel = meta0.num_fixed_columns ∧
    config.s = meta0.num_selectors := by
  have h1 : config = (MuxChip.configure meta0).1 := by rw [hc]
  have h2 : m1 = (MuxChip.configure meta0).2 := by rw [hc]
  subst h1; subst h2
  refine ⟨rfl, rfl, rfl, ⟨_, rfl, rfl, rfl⟩, rfl, rfl, rfl, rfl, rfl⟩

/-- Closed instantiation of `configure_allocates_columns` at a fresh
constraint system over `ZMod 5`. -/
theorem configure_allocates_columns_witness :
    (MuxChip.configure (csStart (ZMod 5))).2.num_advice_columns = 0 + 3 ∧
    cfg0.s = 0 := by
  have h := configure_allocates_columns (csStart (ZMod 5))
    (MuxChip.configure (csStart (ZMod 5))).2 cfg0 rfl
  exact ⟨h.1, h.2.2.2.2.2.2.2.2⟩

/-- C3: `configure` registers exactly one polynomial gate, whose identity
evaluates to `s · ((1 − sel) · in_a + sel · in_b − out)` on every
assignment — hence it is enforced exactly where the selector `s` is active
and vacuously satisfied (evaluates to `0`) wherever `s` reads `0`. -/
theorem configure_registers_single_mux_gate [Field F]
    (meta0 m1 : ConstraintSystem F) (config : MuxConfig)
    (hc : MuxChip.configure meta0 = (config, m1)) :
    ∃ p : Expression F,
      m1.gates = meta0.gates ++ [⟨"mux", [p]⟩] ∧
      (∀ (selv : Nat → F) (fixv advv : Nat → Int → F),
        p.eval selv fixv advv =
          selv config.s *
            ((1 - fixv config.sel 0) * advv (config.advice 0) 0 +
              fixv config.sel 0 * advv (config.advice 1) 0 -
              advv (config.advice 2) 0)) ∧
      (∀ (selv : Nat → F) (fixv advv : Nat → Int → F),
        selv config.s = 0 → p.eval selv fixv advv = 0) := by
  have h1 : config = (MuxChip.configure meta0).1 := by rw [hc]
  have h2 : m1 = (MuxChip.configure meta0).2 := by rw [hc]
  subst h1; subst h2
  refine ⟨_, rfl, fun selv fixv advv => ?_, fun selv fixv advv hs => ?_⟩
  · simp only [MuxChip.configure, ConstraintSystem.advice_column,
      ConstraintSystem.fixed_column, ConstraintSystem.selector,
      ConstraintSystem.query_selector, ConstraintSystem.query_advice,
      ConstraintSystem.query_fixed, Rotation.cur, eval_mul, eval_sub,
      eval_add, eval_const, Expression.eval, Matrix.cons_val_zero,
      Matrix.cons_val_one, Matrix.cons_val_two, Matrix.head_cons, Matrix.tail_cons]
    ring
  · simp only [MuxChip.configure, ConstraintSystem.advice_column,
      ConstraintSystem.fixed_column, ConstraintSystem.selector,
      ConstraintSystem.query_selector, eval_mul, Expression.eval,
      Matrix.cons_val_zero, Matrix.cons_val_one, Matrix.cons_val_two,
      Matrix.head_cons, Matrix.tail_cons] at hs ⊢
    rw [hs]
    ring

/-- Closed instantiation of `configure_registers_single_mux_gate` over
`ZMod 5`: the gate list of the configured system and the vacuous case. -/
theorem configure_registers_single_mux_gate_witness :
    ∃ p : Expression (ZMod 5),
      (MuxChip.configure (csStart (ZMod 5))).2.gates = [] ++ [⟨"mux", [p]⟩] ∧
      (∀ (selv : Nat → ZMod 5) (fixv advv : Nat → Int → ZMod 5),
        p.eval selv fixv advv =
          selv cfg0.s *
            ((1 - fixv cfg0.sel 0) * advv (cfg0.advice 0) 0 +
              fixv cfg0.sel 0 * advv (cfg0.advice 1) 0 -
              advv (cfg0.advice 2) 0)) ∧
      (∀ (selv : Nat → ZMod 5) (fixv advv : Nat → Int → ZMod 5),
        selv cfg0.s = 0 → p.eval selv fixv advv = 0) := by
  have h := configure_registers_single_mux_gate (csStart (ZMod 5))
    (MuxChip.configure (csStart (ZMod 5))).2 cfg0 rfl
  simpa [csStart] using h

/-- Evaluating `muxOut` on fully-known inputs. -/
theorem muxOut_known [Field F] (va vb vs : F) :
    muxOut (Value.known va) (Value.known vb) (Value.known vs) =
      Value.known (va * (1 - vs) + vb * vs) := rfl

/-- The region written by a successful `mux` call with fully-known inputs
satisfies the gate registered by `configure` at the written row. -/
theorem fresh_mux_gate_satisfied [Field F] (va vb vs : F) (row : Nat)
    (g : Gate F) (hg : freshGates F = [g]) :
    (⟨[(0, row)], [(0, row, Value.known vs)],
      [(2, row, muxOut (Value.known va) (Value.known vb) (Value.known vs)),
        (1, row, Value.known vb), (0, row, Value.known va)]⟩ :
      Region F).gateSatisfiedAt g row := by
  have hG : freshGates F =
      [⟨"mux", [Expression.Product (Expression.Selector 0)
        (Expression.Sum
          (Expression.Sum
            (Expression.Product
              (Expression.Sum (Expression.Constant 1)
                (Expression.Negated (Expression.Fixed 0 0)))
              (Expression.Advice 0 0))
            (Expression.Product (Expression.Fixed 0 0)
              (Expression.Advice 1 0)))
          (Expression.Negated (Expression.Advice 2 0)))]⟩] := rfl
  rw [hG] at hg
  injection hg with h1 _
  subst h1
  intro q hq
  simp only [List.mem_singleton] at hq
  subst hq
  set r : Region F :=
    ⟨[(0, row)], [(0, row, Value.known vs)],
      [(2, row, muxOut (Value.known va) (Value.known vb) (Value.known vs)),
        (1, row, Value.known vb), (0, row, Value.known va)]⟩ with hr
  have hsel : r.selectorValue row 0 = 1 := by
    simp [hr, Region.selectorValue]
  have hfix : r.fixedValue row 0 0 = vs := by
    simp [hr, Region.fixedValue, cellsAt, Value.getD]
  have hva : r.adviceValue row 0 0 = va := by
    simp [hr, Region.adviceValue, cellsAt, Value.getD]
  have hvb : r.adviceValue row 1 0 = vb := by
    simp [hr, Region.adviceValue, cellsAt, Value.getD]
  have hvo : r.adviceValue row 2 0 = va * (1 - vs) + vb * vs := by
    simp [hr, Region.adviceValue, cellsAt, muxOut_known, Value.getD]
  simp only [Expression.eval, hsel, hfix, hva, hvb, hvo]
  ring

/-- C1: for all field elements `a`, `b` and `sel ∈ {0,1}`, after
`mux(_, a, b, sel, row)` with known inputs, the value bound to the `out`
cell equals `a` when `sel = 0` and `b` when `sel = 1`, and the registered
gate constraint is satisfied at that row. -/
theorem mux_boolean_selector_correct [Field F] (a b : F) (row : Nat) :
    ∃ (g : Gate F) (rA rB : Region F) (outA outB : AssignedCell F),
      freshGates F = [g] ∧
      MuxChip.mux (freshConfig F) (HostOutcome.ok E) (Region.empty F)
        (Value.known a) (Value.known b) (Value.known 0) row =
        Except.ok (rA, outA) ∧
      outA.value = Value.known a ∧
      cellsAt rA.adviceCells ((freshConfig F).advice 2) row = Value.known a ∧
      rA.gateSatisfiedAt g row ∧
      MuxChip.mux (freshConfig F) (HostOutcome.ok E) (Region.empty F)
        (Value.known a) (Value.known b) (Value.known 1) row =
        Except.ok (rB, outB) ∧
      outB.value = Value.known b ∧
      cellsAt rB.adviceCells ((freshConfig F).advice 2) row = Value.known b ∧
      rB.gateSatisfiedAt g row := by
  refine ⟨_, _, _, _, _, rfl, mux_hostOk _ _ _ _ _ _, ?_, ?_, ?_,
    mux_hostOk _ _ _ _ _ _, ?_, ?_, ?_⟩
  · simp [muxOut_known]
  · simp [cellsAt, muxOut_known]
  · exact fresh_mux_gate_satisfied a b 0 row _ rfl
  · simp [muxOut_known]
  · simp [cellsAt, muxOut_known]
  · exact fresh_mux_gate_satisfied a b 1 row _ rfl

/-- C2: for all field elements `a`, `b`, `sel` (not restricted to
boolean), the value `mux` binds to the `out` cell equals
`a·(1−sel) + b·sel` exactly; in particular with `sel = 2` the bound `out`
equals `2·b − a` and the registered gate is still satisfied. -/
theorem mux_value_linear_blend [Field F] (a b sel : F) (row : Nat) :
    ∃ (g : Gate F) (rA rB : Region F) (outA outB : AssignedCell F),
      freshGates F = [g] ∧
      MuxChip.mux (freshConfig F) (HostOutcome.ok E) (Region.empty F)
        (Value.known a) (Value.known b) (Value.known sel) row =
        Except.ok (rA, outA) ∧
      outA.value = Value.known (a * (1 - sel) + b * sel) ∧
      cellsAt rA.adviceCells ((freshConfig F).advice 2) row =
        Value.known (a * (1 - sel) + b * sel) ∧
      rA.gateSatisfiedAt g row ∧
      MuxChip.mux (freshConfig F) (HostOutcome.ok E) (Region.empty F)
        (Value.known a) (Value.known b) (Value.known 2) row =
        Except.ok (rB, outB) ∧
      outB.value = Value.known (2 * b - a) ∧
      rB.gateSatisfiedAt g row := by
  have h2 : a * (1 - 2) + b * 2 = 2 * b - a := by ring
  refine ⟨_, _, _, _, _, rfl, mux_hostOk _ _ _ _ _ _, ?_, ?_, ?_,
    mux_hostOk _ _ _ _ _ _, ?_, ?_⟩
  · simp [muxOut_known]
  · simp [cellsAt, muxOut_known]
  · exact fresh_mux_gate_satisfied a b sel row _ rfl
  · simp [muxOut_known, h2]
  · exact fresh_mux_gate_satisfied a b 2 row _ rfl

/-- Full characterization of `MuxChip::mux`: it fails with exactly the
first host failure in call order, and otherwise commits the five bindings
and returns the `out` cell. -/
theorem mux_outcome [Field F] (config : MuxConfig)
    (h : HostOutcome E) (r0 : Region F) (a b sel : Value F) (row : Nat) :
    MuxChip.mux config h r0 a b sel row =
      (match h.enableErr, h.selErr, h.inAErr, h.inBErr, h.outErr with
       | some e, _, _, _, _ => Except.error e
       | none, some e, _, _, _ => Except.error e
       | none, none, some e, _, _ => Except.error e
       | none, none, none, some e, _ => Except.error e
       | none, none, none, none, some e => Except.error e
       | none, none, none, none, none =>
         Except.ok
           ({ enabled := (config.s, row) :: r0.enabled,
              fixedCells := (config.sel, row, sel) :: r0.fixedCells,
              adviceCells := (config.advice 2, row, muxOut a b sel) ::
                (config.advice 1, row, b) :: (config.advice 0, row, a) ::
                r0.adviceCells },
            ⟨ColumnKind.advice, config.advice 2, row, muxOut a b sel⟩)) := by
  obtain ⟨e1, e2, e3, e4, e5⟩ := h
  cases e1 <;> cases e2 <;> cases e3 <;> cases e4 <;> cases e5 <;> rfl

/-- C7: `mux` propagates the first binding failure raised by the host
scope (in call order: enable, `sel`, `in_a`, `in_b`, `out`) unchanged as
its own error; the outcome depends only on the host's failures — never on
the value of `sel`, which is not validated — and on success it returns the
bound `out` cell carrying `a·(1−sel) + b·sel`. -/
theorem mux_error_propagation [Field F] (config : MuxConfig)
    (h : HostOutcome E) (r0 : Region F) (a b sel : Value F) (row : Nat) :
    MuxChip.mux config h r0 a b sel row =
      (match h.enableErr, h.selErr, h.inAErr, h.inBErr, h.outErr with
       | some e, _, _, _, _ => Except.error e
       | none, some e, _, _, _ => Except.error e
       | none, none, some e, _, _ => Except.error e
       | none, none, none, some e, _ => Except.error e
       | none, none, none, none, some e => Except.error e
       | none, none, none, none, none =>
         Except.ok
           ({ enabled := (config.s, row) :: r0.enabled,
              fixedCells := (config.sel, row, sel) :: r0.fixedCells,
              adviceCells := (config.advice 2, row, muxOut a b sel) ::
                (config.advice 1, row, b) :: (config.advice 0, row, a) ::
                r0.adviceCells },
            ⟨ColumnKind.advice, config.advice 2, row, muxOut a b sel⟩)) :=
  mux_outcome config h r0 a b sel row

/-- C8: a successful `mux` call binds `out = muxOut a b sel`, and that
value is the `unknown` placeholder exactly when at least one of `a`, `b`,
`sel` is `unknown` — in particular it is known whenever all three are. -/
theorem mux_unknown_propagation [Field F] (config : MuxConfig)
    (r0 : Region F) (a b sel : Value F) (row : Nat) :
    ∃ (r : Region F) (outCell : AssignedCell F),
      MuxChip.mux config (HostOutcome.ok E) r0 a b sel row =
        Except.ok (r, outCell) ∧
      outCell.value = muxOut a b sel ∧
      (muxOut a b sel = Value.unknown ↔
        (a = Value.unknown ∨ b = Value.unknown ∨ sel = Value.unknown)) := by
  refine ⟨_, _, mux_hostOk _ _ _ _ _ _, rfl, ?_⟩
  cases a <;> cases b <;> cases sel <;>
      (try simp [muxOut, known_mul, known_add, known_sub]) <;> rfl

/-- Every call recorded in the synthesis trace ran on its own fresh,
initially-empty region. -/
theorem synthLoop_calls_fresh [Field F] (c : MuxCircuit F)
    (config : MuxConfig) (hs : Nat → HostOutcome E) :
    ∀ (n i : Nat) (calls : List (MuxCall F E)),
      synthLoop c config hs i n = some calls →
      ∀ cl ∈ calls, cl.result =
        MuxChip.mux config (hs cl.row) (Region.empty F) cl.a cl.b cl.sel
          cl.row := by
  intro n
  induction n with
  | zero =>
    intro i calls hc cl hcl
    rw [synthLoop] at hc
    cases hc
    simp at hcl
  | succ n ih =>
    intro i calls hc cl hcl
    rw [synthLoop] at hc
    cases ha : c.a.get? i with
    | none => rw [ha] at hc; cases hc
    | some ai =>
      cases hb : c.b.get? i with
      | none => rw [ha, hb] at hc; cases hc
      | some bi =>
        cases hrest : synthLoop c config hs (i + 1) n with
        | none => rw [ha, hb, hrest] at hc; cases hc
        | some rest =>
          rw [ha, hb, hrest] at hc
          injection hc with hc
          subst hc
          rcases List.mem_cons.mp hcl with rfl | hmem
          · rfl
          · exact ih (i + 1) rest hrest cl hmem

/-- C9: a successful `mux` call extends the region by exactly one selector
activation and exactly four cells — `sel` in the fixed column, `a`, `b`,
`out` in the three advice columns — all at the given row, leaving every
previously-committed binding untouched; and within `synthesize`, every
recorded call ran on its own freshly-created empty region, so distinct
gadget instances' regions are disjoint. -/
theorem mux_writes_one_row_of_one_region [Field F] (config : MuxConfig)
    (h : HostOutcome E) (r0 r : Region F) (a b sel : Value F) (row : Nat)
    (outCell : AssignedCell F)
    (hok : MuxChip.mux config h r0 a b sel row = Except.ok (r, outCell)) :
    r.enabled = (config.s, row) :: r0.enabled ∧
    r.fixedCells = (config.sel, row, sel) :: r0.fixedCells ∧
    r.adviceCells = (config.advice 2, row, muxOut a b sel) ::
      (config.advice 1, row, b) :: (config.advice 0, row, a) ::
      r0.adviceCells ∧
    (∀ (c : MuxCircuit F) (L : Nat) (hs : Nat → HostOutcome E)
        (calls : List (MuxCall F E)),
      c.synthesizeCalls L config hs = some calls →
      ∀ cl ∈ calls, cl.result =
        MuxChip.mux config (hs cl.row) (Region.empty F) cl.a cl.b cl.sel
          cl.row) := by
  rw [mux_outcome] at hok
  obtain ⟨e1, e2, e3, e4, e5⟩ := h
  cases e1 <;> cases e2 <;> cases e3 <;> cases e4 <;> cases e5 <;>
    try exact Except.noConfusion hok
  injection hok with hok
  injection hok with hr hcell
  subst hr
  exact ⟨rfl, rfl, rfl, fun c L hs calls hc cl hcl =>
    synthLoop_calls_fresh c config hs L 0 calls hc cl hcl⟩

/-- Closed instantiation of `mux_writes_one_row_of_one_region` over
`ZMod 5`. -/
theorem mux_writes_one_row_witness :
    ∃ (r : Region (ZMod 5)) (outCell : AssignedCell (ZMod 5)),
      MuxChip.mux cfg0 (HostOutcome.ok Nat) (Region.empty (ZMod 5))
        (Value.known 1) (Value.known 2) (Value.known 1) 3 =
        Except.ok (r, outCell) ∧
      r.enabled = [(cfg0.s, 3)] ∧
      r.fixedCells = [(cfg0.sel, 3, Value.known 1)] := by
  refine ⟨_, _, mux_hostOk _ _ _ _ _ _, ?_, ?_⟩
  · exact (mux_writes_one_row_of_one_region cfg0 (HostOutcome.ok Nat)
      (Region.empty (ZMod 5)) _ (Value.known 1) (Value.known 2)
      (Value.known 1) 3 _ (mux_hostOk _ _ _ _ _ _)).1
  · exact (mux_writes_one_row_of_one_region cfg0 (HostOutcome.ok Nat)
      (Region.empty (ZMod 5)) _ (Value.known 1) (Value.known 2)
      (Value.known 1) 3 _ (mux_hostOk _ _ _ _ _ _)).2.1

/-- Lemma: `Nat.toDigitsCore` with enough fuel produces the reversed
`digitChar` image of `Nat.digits`. -/
theorem toDigitsCore_eq_digits :
    ∀ (f n : Nat) (ds : List Char), 0 < n → n ≤ f →
      Nat.toDigitsCore 10 f n ds =
        ((Nat.digits 10 n).map Nat.digitChar).reverse ++ ds := by
  intro f
  induction f with
  | zero => intro n ds hn hf; omega
  | succ f ih =>
    intro n ds hn hf
    rw [Nat.toDigitsCore]
    rw [Nat.digits_def' (by norm_num : (1:Nat) < 10) hn]
    by_cases h10 : n / 10 = 0
    · rw [if_pos h10, h10]
      simp
    · have hdiv : n / 10 < n := Nat.div_lt_self hn (by norm_num)
      rw [if_neg h10, ih (n / 10) _ (Nat.pos_of_ne_zero h10) (by omega)]
      simp

theorem toDigits_eq_padDigits (n : Nat) :
    Nat.toDigits 10 n = ((padDigits n).map Nat.digitChar).reverse := by
  by_cases h : n = 0
  · subst h; rfl
  · rw [Nat.toDigits, toDigitsCore_eq_digits (n + 1) n []
      (Nat.pos_of_ne_zero h) (by omega), padDigits, if_neg h,
      List.append_nil]

theorem ofDigits_padDigits (n : Nat) : Nat.ofDigits 10 (padDigits n) = n := by
  by_cases h : n = 0
  · subst h; rfl
  · rw [padDigits, if_neg h]
    exact_mod_cast Nat.ofDigits_digits 10 n

theorem padDigits_lt_ten (n : Nat) : ∀ d ∈ padDigits n, d < 10 := by
  intro d hd
  by_cases h : n = 0
  · subst h; simp [padDigits] at hd; omega
  · rw [padDigits, if_neg h] at hd
    exact Nat.digits_lt_base (by norm_num) hd

theorem digitChar_inj_lt {a b : Nat} (ha : a < 10) (hb : b < 10)
    (h : Nat.digitChar a = Nat.digitChar b) : a = b := by
  have key : ∀ x y : Fin 10, Nat.digitChar x.val = Nat.digitChar y.val → x = y := by decide
  have := key ⟨a, ha⟩ ⟨b, hb⟩ h
  exact congrArg Fin.val this

theorem map_digitChar_inj :
    ∀ (l1 l2 : List Nat), (∀ d ∈ l1, d < 10) → (∀ d ∈ l2, d < 10) →
      l1.map Nat.digitChar = l2.map Nat.digitChar → l1 = l2 := by
  intro l1
  induction l1 with
  | nil =>
    intro l2 _ _ h
    cases l2 with
    | nil => rfl
    | cons b t2 => simp at h
  | cons a t ih =>
    intro l2 h1 h2 h
    cases l2 with
    | nil => simp at h
    | cons b t2 =>
      simp only [List.map_cons, List.cons.injEq] at h
      have hab := digitChar_inj_lt (h1 a (by simp)) (h2 b (by simp)) h.1
      have ht := ih t2 (fun d hd => h1 d (by simp [hd]))
        (fun d hd => h2 d (by simp [hd])) h.2
      rw [hab, ht]

theorem repr_inj : Function.Injective Nat.repr := by
  intro m n h
  have h1 : Nat.toDigits 10 m = Nat.toDigits 10 n := by
    have h2 := congrArg String.data h
    simpa [Nat.repr, List.asString] using h2
  rw [toDigits_eq_padDigits, toDigits_eq_padDigits] at h1
  have h3 := List.reverse_injective h1
  have h4 := map_digitChar_inj _ _ (padDigits_lt_ten m) (padDigits_lt_ten n) h3
  have h5 := congrArg (Nat.ofDigits 10) h4
  rwa [ofDigits_padDigits, ofDigits_padDigits] at h5

theorem nsName_inj : Function.Injective (fun i : Nat => "mux_" ++ Nat.repr i) := by
  intro i j h
  simp only at h
  have hd := congrArg String.data h
  simp only [String.data_append] at hd
  have : (Nat.repr i).data = (Nat.repr j).data := List.append_cancel_left hd
  exact repr_inj (by apply String.ext; exact this)

/-- Full description of the synthesis loop when every accessed index is in
bounds: starting at `i` with `n` iterations left it records exactly the
calls `muxCallAt (i + k)` for `k < n`. -/
theorem synthLoop_eq [Field F] (c : MuxCircuit F) (config : MuxConfig)
    (hs : Nat → HostOutcome E) :
    ∀ (n i : Nat),
      (∀ j, j < n → i + j < c.a.length ∧ i + j < c.b.length) →
      synthLoop c config hs i n =
        some ((List.range n).map fun k => muxCallAt c config hs (i + k)) := by
  intro n
  induction n with
  | zero => intro i _; rw [synthLoop]; rfl
  | succ n ih =>
    intro i hbound
    have hia : i < c.a.length := by have := hbound 0 (by omega); omega
    have hib : i < c.b.length := by have := hbound 0 (by omega); omega
    have ha : c.a.get? i = some (c.a.getD i Value.unknown) := by
      cases hx : c.a.get? i with
      | none => have := List.get?_eq_none.mp hx; omega
      | some v => simp [List.getD, ← List.get?_eq_getElem?, hx]
    have hb : c.b.get? i = some (c.b.getD i Value.unknown) := by
      cases hx : c.b.get? i with
      | none => have := List.get?_eq_none.mp hx; omega
      | some v => simp [List.getD, ← List.get?_eq_getElem?, hx]
    have hmap : ((List.range n).map fun k => muxCallAt c config hs (i + 1 + k)) =
        (List.range n).map
          ((fun k => muxCallAt c config hs (i + k) (E := E)) ∘ Nat.succ) := by
      apply List.map_congr_left
      intro k _
      simp only [Function.comp]
      exact congrArg (muxCallAt c config hs) (by omega)
    rw [synthLoop, ha, hb,
      ih (i + 1) (fun j hj => by have := hbound (j + 1) (by omega); omega)]
    rw [List.range_succ_eq_map, List.map_cons, List.map_map, ← hmap]
    rfl

/-- If the synthesis loop does not panic, every accessed index was in
bounds for both slices. -/
theorem synthLoop_isSome_bounds [Field F] (c : MuxCircuit F)
    (config : MuxConfig) (hs : Nat → HostOutcome E) :
    ∀ (n i : Nat), (synthLoop c config hs i n).isSome →
      ∀ j, j < n → i + j < c.a.length ∧ i + j < c.b.length := by
  intro n
  induction n with
  | zero => intro i _ j hj; omega
  | succ n ih =>
    intro i hsome j hj
    rw [synthLoop] at hsome
    cases ha : c.a.get? i with
    | none => rw [ha] at hsome; simp at hsome
    | some ai =>
      cases hb : c.b.get? i with
      | none => rw [ha, hb] at hsome; simp at hsome
      | some bi =>
        cases hrest : synthLoop c config hs (i + 1) n with
        | none => rw [ha, hb, hrest] at hsome; simp at hsome
        | some rest =>
          have hia : i < c.a.length := by
            by_contra hcon
            rw [List.get?_eq_none.mpr (by omega)] at ha
            cases ha
          have hib : i < c.b.length := by
            by_contra hcon
            rw [List.get?_eq_none.mpr (by omega)] at hb
            cases hb
          cases j with
          | zero => omega
          | succ j =>
            have := ih (i + 1) (by rw [hrest]; rfl) j (by omega)
            omega

/-- C5 (amended): during synthesis for fixed length `L` the driver
iterates `i` over `0..L` and, for each `i`, opens the uniquely-named
scoped region `format!("mux_{}", i)` and invokes `mux` with `a[i]`,
`b[i]`, the single shared `sel`, and row `i` — the loop index, not row
`0` — within that region. -/
theorem synthesize_calls_trace [Field F] (c : MuxCircuit F) (L : Nat)
    (config : MuxConfig) (hs : Nat → HostOutcome E)
    (ha : L ≤ c.a.length) (hb : L ≤ c.b.length) :
    c.synthesizeCalls L config hs =
      some ((List.range L).map fun i => muxCallAt c config hs i) ∧
    ((List.range L).map fun i =>
      (muxCallAt c config hs (E := E) i).nsName).Nodup := by
  constructor
  · have h := synthLoop_eq c config hs L 0
      (fun j hj => ⟨by omega, by omega⟩)
    simpa [MuxCircuit.synthesizeCalls, Nat.zero_add] using h
  · have h : ((List.range L).map fun i => "mux_" ++ Nat.repr i).Nodup :=
      (List.nodup_range L).map nsName_inj
    simpa [muxCallAt] using h

/-- Closed instantiation of `synthesize_calls_trace` on the two-row
circuit over `ZMod 5`. -/
theorem synthesize_calls_trace_witness :
    MuxCircuit.synthesizeCalls circuitTwo 2 cfg0 hostOkSeq =
      some ((List.range 2).map fun i => muxCallAt circuitTwo cfg0 hostOkSeq i) ∧
    ((List.range 2).map fun i =>
      (muxCallAt circuitTwo cfg0 hostOkSeq i).nsName).Nodup :=
  synthesize_calls_trace circuitTwo 2 cfg0 hostOkSeq (by decide) (by decide)

/-- C5 (counterexample to the claim as stated): on a concrete two-row
circuit the recorded rows are `[0, 1]` — the second instance is invoked
with row `1`, not row `0`. -/
theorem synthesize_row_is_index_counterexample :
    callRows (MuxCircuit.synthesizeCalls circuitTwo 2 cfg0 hostOkSeq) =
      some [0, 1] ∧ (1 : Nat) ≠ 0 := ⟨rfl, by decide⟩

/-- C6 (the code at the failing input): `synthesize` discards every
per-row `Result` (`let _ = chip.mux(...)`) and returns `Ok(())` whenever
the loop itself does not panic — even when a host failure makes a recorded
call fail, as the concrete one-row circuit with a host failing its first
binder operation (error `7`) shows. -/
theorem synthesize_discards_errors [Field F] (c : MuxCircuit F) (L : Nat)
    (config : MuxConfig) (hs : Nat → HostOutcome E)
    (calls : List (MuxCall F E))
    (hc : c.synthesizeCalls L config hs = some calls) :
    c.synthesize L config hs = some (Except.ok ()) ∧
    MuxCircuit.synthesize circuitOne 1 cfg0 hostFailSeq =
      some (Except.ok ()) ∧
    callResults (MuxCircuit.synthesizeCalls circuitOne 1 cfg0 hostFailSeq) =
      some [Except.error 7] := by
  refine ⟨?_, rfl, rfl⟩
  rw [MuxCircuit.synthesize, hc]
  rfl

/-- Closed instantiation of `synthesize_discards_errors`: the one-row
circuit under the failing host still synthesizes to `Ok(())`. -/
theorem synthesize_discards_errors_witness :
    MuxCircuit.synthesize circuitOne 1 cfg0 hostFailSeq =
      some (Except.ok ()) :=
  (synthesize_discards_errors circuitOne 1 cfg0 hostFailSeq _ rfl).2.1

/-- C10: synthesis for length `L` indexes `a[i]` and `b[i]` for every
`i < L` with no bounds guard, so it completes without a panic exactly when
both witness slices have length at least `L`. -/
theorem synthesize_isSome_iff_lengths [Field F] (c : MuxCircuit F)
    (L : Nat) (config : MuxConfig) (hs : Nat → HostOutcome E) :
    (c.synthesize L config hs).isSome ↔
      L ≤ c.a.length ∧ L ≤ c.b.length := by
  have hmap : ∀ (o : Option (List (MuxCall F E))),
      (o.map fun _ => (Except.ok () : Except E Unit)).isSome = o.isSome := by
    intro o; cases o <;> rfl
  rw [MuxCircuit.synthesize, hmap]
  constructor
  · intro h
    rcases Nat.eq_zero_or_pos L with rfl | hL
    · exact ⟨Nat.zero_le _, Nat.zero_le _⟩
    · have hb := synthLoop_isSome_bounds c config hs L 0 h (L - 1)
        (by omega)
      omega
  · rintro ⟨h1, h2⟩
    rw [MuxCircuit.synthesizeCalls,
      synthLoop_eq c config hs L 0 (fun j hj => ⟨by omega, by omega⟩)]
    rfl

end Theorems

end MuxSpec
